import Mathlib

/-!
Shallow embedding of the goharmony package (OpenAI Harmony format parser,
file `harmony.go`).  Strings are modelled as `List Char`; the three Go
regular expressions (`messagePattern`, `channelPattern`, `functionPattern`)
are embedded as deterministic scanners that reproduce RE2 leftmost-first
matching for these particular patterns (every greedy sub-expression of the
patterns is followed by a requirement its character class cannot satisfy,
so the backtracking engine and the maximal-munch scanner agree; the lazy
body stops at the nearest terminator, exactly as `(.*?)` with an ordered
alternation does).  `ParseResponse` returns the pair (messages, error),
mirroring the Go `([]Message, error)` convention, so "an error returns no
messages" is an observable fact of the model.
-/

set_option linter.unusedVariables false
set_option maxRecDepth 8192

namespace GoHarmony

/-! ### Character classes (RE2 ASCII classes and Go `unicode.IsSpace`) -/

/-- RE2 `\w` = `[0-9A-Za-z_]`. -/
def isWordChar (c : Char) : Bool :=
  ('0' ≤ c && c ≤ '9') || ('a' ≤ c && c ≤ 'z') || ('A' ≤ c && c ≤ 'Z') || c == '_'

/-- RE2 `[\w.]`. -/
def isToChar (c : Char) : Bool := isWordChar c || c == '.'

/-- RE2 `\s` = `[\t\n\f\r ]`. -/
def isRegexSpace (c : Char) : Bool :=
  c == ' ' || c == '\t' || c == '\n' || c == '\x0c' || c == '\r'

/-- Go `unicode.IsSpace`: the Unicode White_Space code points. -/
def isUniSpace (c : Char) : Bool :=
  (9 ≤ c.toNat && c.toNat ≤ 13) || c.toNat == 32 || c.toNat == 0x85 ||
    c.toNat == 0xA0 || c.toNat == 0x1680 ||
    (0x2000 ≤ c.toNat && c.toNat ≤ 0x200A) || c.toNat == 0x2028 ||
    c.toNat == 0x2029 || c.toNat == 0x202F || c.toNat == 0x205F ||
    c.toNat == 0x3000

/-- Go `strings.TrimSpace`: drop leading and trailing White_Space. -/
def trimSpace (s : List Char) : List Char :=
  ((s.dropWhile isUniSpace).reverse.dropWhile isUniSpace).reverse

/-! ### Literal tokens of the Harmony format -/

def startTok : List Char := ['<', '|', 's', 't', 'a', 'r', 't', '|', '>']

def chanTok : List Char := ['<', '|', 'c', 'h', 'a', 'n', 'n', 'e', 'l', '|', '>']

def msgTok : List Char := ['<', '|', 'm', 'e', 's', 's', 'a', 'g', 'e', '|', '>']

def constrainTok : List Char :=
  ['<', '|', 'c', 'o', 'n', 's', 't', 'r', 'a', 'i', 'n', '|', '>']

def endTok : List Char := ['<', '|', 'e', 'n', 'd', '|', '>']

def callTok : List Char := ['<', '|', 'c', 'a', 'l', 'l', '|', '>']

def returnTok : List Char := ['<', '|', 'r', 'e', 't', 'u', 'r', 'n', '|', '>']

def toEq : List Char := ['t', 'o', '=']

def funcLit : List Char :=
  ['F', 'U', 'N', 'C', 'T', 'I', 'O', 'N', '_', 'C', 'A', 'L', 'L', ':']

def chAnalysis : List Char := ['a', 'n', 'a', 'l', 'y', 's', 'i', 's']

def chCommentary : List Char := ['c', 'o', 'm', 'm', 'e', 'n', 't', 'a', 'r', 'y']

def chFinal : List Char := ['f', 'i', 'n', 'a', 'l']

def functionsDot : List Char := ['f', 'u', 'n', 'c', 't', 'i', 'o', 'n', 's', '.']

/-! ### Basic string scanning primitives -/

/-- `leadsWith pat s` : does `s` start with `pat` (Go `strings.HasPrefix s pat`). -/
def leadsWith : List Char → List Char → Bool
  | [], _ => true
  | _ :: _, [] => false
  | p :: ps, c :: cs => p == c && leadsWith ps cs

/-- Go `strings.Contains s pat` : some suffix of `s` starts with `pat`. -/
def containsTok (pat : List Char) : List Char → Bool
  | [] => leadsWith pat []
  | c :: cs => leadsWith pat (c :: cs) || containsTok pat cs

/-- Position of the first occurrence of `c` (Go `strings.Index` for one char). -/
def indexOfChar (c : Char) : List Char → Option Nat
  | [] => none
  | x :: xs => if x == c then some 0 else (indexOfChar c xs).map (· + 1)

/-- Position of the last occurrence of `c` (Go `strings.LastIndex` for one char). -/
def lastIndexOfChar (c : Char) : List Char → Option Nat
  | [] => none
  | x :: xs =>
    match lastIndexOfChar c xs with
    | some k => some (k + 1)
    | none => if x == c then some 0 else none

/-- Go `strings.Split s "."` : split on every dot, keeping empty segments. -/
def splitDot : List Char → List (List Char)
  | [] => [[]]
  | c :: cs =>
    if c == '.' then [] :: splitDot cs
    else
      match splitDot cs with
      | [] => [[c]]
      | s :: ss => (c :: s) :: ss

/-! ### Data model: `Message` and `ParserConfig` -/

/-- The Go `Message` struct. -/
structure Message where
  Role : List Char
  Channel : List Char
  Content : List Char
  To : List Char
  IsCall : Bool
deriving Repr, DecidableEq

/-- The Go `ParserConfig` struct. -/
structure ParserConfig where
  StrictMode : Bool
  DefaultRole : List Char
deriving Repr, DecidableEq

/-- Go `DefaultConfig()`. -/
def DefaultConfig : ParserConfig :=
  { StrictMode := false
    DefaultRole := ['a', 's', 's', 'i', 's', 't', 'a', 'n', 't'] }

/-- The strict configuration used by the package's own strict-mode test. -/
def StrictConfig : ParserConfig :=
  { StrictMode := true
    DefaultRole := ['a', 's', 's', 'i', 's', 't', 'a', 'n', 't'] }

/-- Go `Parser.isValidChannel`. -/
def isValidChannel (c : List Char) : Bool :=
  c == chAnalysis || c == chCommentary || c == chFinal

/-- The error string built by `fmt.Errorf("invalid channel: %s", ...)`. -/
def invalidChannelErr (c : List Char) : List Char :=
  ['i', 'n', 'v', 'a', 'l', 'i', 'd', ' ', 'c', 'h', 'a', 'n', 'n', 'e', 'l',
   ':', ' '] ++ c

/-! ### The full-form rule (`messagePattern`)

`(?s)(?:<\|start\|>)?(\w+)?<\|channel\|>(\w+)(?:\s+to=([\w.]+))?`
`(?:\s*<\|constrain\|>\w+)?<\|message\|>(.*?)(?:<\|(?:end|call|return)\|>|$)` -/

/-- Which terminator token closed a full-form message body (`none` = end of
input, the `$` alternative). -/
inductive Term where
  | tEnd
  | tCall
  | tReturn
deriving Repr, DecidableEq

/-- The literal text of a terminator; the `$` alternative consumes nothing. -/
def termStr : Option Term → List Char
  | none => []
  | some .tEnd => endTok
  | some .tCall => callTok
  | some .tReturn => returnTok

/-- Result of the lazy body scan `(.*?)(?:<\|(?:end|call|return)\|>|$)`. -/
structure BodyRes where
  body : List Char
  term : Option Term
  rest : List Char
deriving Repr, DecidableEq

/-- Lazy body matching: the body stops at the nearest terminator token, or
runs to the end of input (the `$` alternative) when no terminator occurs. -/
def scanBody : List Char → BodyRes
  | [] => ⟨[], none, []⟩
  | c :: cs =>
    if leadsWith endTok (c :: cs) then ⟨[], some .tEnd, (c :: cs).drop endTok.length⟩
    else if leadsWith callTok (c :: cs) then
      ⟨[], some .tCall, (c :: cs).drop callTok.length⟩
    else if leadsWith returnTok (c :: cs) then
      ⟨[], some .tReturn, (c :: cs).drop returnTok.length⟩
    else
      let r := scanBody cs
      ⟨c :: r.body, r.term, r.rest⟩

/-- Result of the optional group `(?:\s+to=([\w.]+))?`: captured target,
consumed text, remaining input. -/
structure ToRes where
  toStr : List Char
  part : List Char
  rest : List Char
deriving Repr, DecidableEq

/-- The optional group `(?:\s+to=([\w.]+))?` at the current position; when
the group cannot match, it is skipped and consumes nothing. -/
def matchToGroup (s : List Char) : ToRes :=
  let ws := s.takeWhile isRegexSpace
  if ws.isEmpty then ⟨[], [], s⟩
  else
    let s1 := s.dropWhile isRegexSpace
    if leadsWith toEq s1 then
      let s2 := s1.drop toEq.length
      let t := s2.takeWhile isToChar
      if t.isEmpty then ⟨[], [], s⟩
      else ⟨t, ws ++ toEq ++ t, s2.dropWhile isToChar⟩
    else ⟨[], [], s⟩

/-- Result of the optional group `(?:\s*<\|constrain\|>\w+)?`. -/
structure CGRes where
  part : List Char
  rest : List Char
deriving Repr, DecidableEq

/-- The optional group `(?:\s*<\|constrain\|>\w+)?` at the current position. -/
def matchConstrainGroup (s : List Char) : CGRes :=
  let ws := s.takeWhile isRegexSpace
  let s1 := s.dropWhile isRegexSpace
  if leadsWith constrainTok s1 then
    let s2 := s1.drop constrainTok.length
    let w := s2.takeWhile isWordChar
    if w.isEmpty then ⟨[], s⟩
    else ⟨ws ++ constrainTok ++ w, s2.dropWhile isWordChar⟩
  else ⟨[], s⟩

/-- One submatch of `messagePattern`: the capture groups, the terminator,
the whole matched text (`match[0]`), and the input remaining after it. -/
structure RawMatch where
  role : List Char
  channel : List Char
  toStr : List Char
  body : List Char
  term : Option Term
  match0 : List Char
  rest : List Char
deriving Repr, DecidableEq

/-- The part of `messagePattern` after the optional `<|start|>` token:
`sp` is the text consumed so far (`<|start|>` or nothing), `s1` the
remaining input. -/
def matchAfterStart (sp s1 : List Char) : Option RawMatch :=
  let role := s1.takeWhile isWordChar
  let s2 := s1.dropWhile isWordChar
  if leadsWith chanTok s2 then
    let s3 := s2.drop chanTok.length
    let chan := s3.takeWhile isWordChar
    if chan.isEmpty then none
    else
      let s4 := s3.dropWhile isWordChar
      let tg := matchToGroup s4
      let cg := matchConstrainGroup tg.rest
      if leadsWith msgTok cg.rest then
        let bt := scanBody (cg.rest.drop msgTok.length)
        some
          { role := role
            channel := chan
            toStr := tg.toStr
            body := bt.body
            term := bt.term
            match0 := sp ++ role ++ chanTok ++ chan ++ tg.part ++ cg.part ++
              msgTok ++ bt.body ++ termStr bt.term
            rest := bt.rest }
      else none
  else none

/-- `messagePattern` anchored at the start of `s` (the attempt the RE2
engine makes at one input position).  The optional `<|start|>` is consumed
when present; when it is present but the remainder fails, no match without
it is possible either, since `(\w+)?<\|channel\|>` cannot match text that
begins with `<|start|>`. -/
def matchMessageAt (s : List Char) : Option RawMatch :=
  if leadsWith startTok s then matchAfterStart startTok (s.drop startTok.length)
  else matchAfterStart [] s

/-- `FindAllStringSubmatch` for `messagePattern`: successive leftmost
matches, resuming after each match.  Every match consumes at least the
channel token, so RE2's empty-match advance rule never fires and one unit
of fuel per input character suffices. -/
def findAllMsgAux : Nat → List Char → List RawMatch
  | 0, _ => []
  | _ + 1, [] => []
  | fuel + 1, c :: cs =>
    match matchMessageAt (c :: cs) with
    | some r => r :: findAllMsgAux fuel r.rest
    | none => findAllMsgAux fuel cs

/-- All full-form matches of the input, leftmost first. -/
def findAllMessage (s : List Char) : List RawMatch := findAllMsgAux s.length s

/-! ### The simplified-form rule (`channelPattern`)

`<\|channel\|>(\w+)<\|message\|>(.*?)(?:<\|end\|>|$)`  (no `(?s)` flag, so
`.` does not match a newline). -/

/-- Lazy body for the simplified rule: stops at the nearest `<|end|>` or at
end of input; fails if a newline occurs first (`.` excludes `\n`). -/
def scanBody2 : List Char → Option (List Char × List Char)
  | [] => some ([], [])
  | c :: cs =>
    if leadsWith endTok (c :: cs) then some ([], (c :: cs).drop endTok.length)
    else if c == '\n' then none
    else
      match scanBody2 cs with
      | some (b, r) => some (c :: b, r)
      | none => none

/-- One submatch of `channelPattern`. -/
structure ChanRaw where
  channel : List Char
  body : List Char
  rest : List Char
deriving Repr, DecidableEq

/-- `channelPattern` anchored at the start of `s`. -/
def matchChannelAt (s : List Char) : Option ChanRaw :=
  if leadsWith chanTok s then
    let s1 := s.drop chanTok.length
    let chan := s1.takeWhile isWordChar
    if chan.isEmpty then none
    else
      let s2 := s1.dropWhile isWordChar
      if leadsWith msgTok s2 then
        match scanBody2 (s2.drop msgTok.length) with
        | some (b, r) => some ⟨chan, b, r⟩
        | none => none
      else none
  else none

/-- `FindAllStringSubmatch` for `channelPattern`. -/
def findAllChanAux : Nat → List Char → List ChanRaw
  | 0, _ => []
  | _ + 1, [] => []
  | fuel + 1, c :: cs =>
    match matchChannelAt (c :: cs) with
    | some r => r :: findAllChanAux fuel r.rest
    | none => findAllChanAux fuel cs

/-- All simplified-form matches of the input, leftmost first. -/
def findAllChannel (s : List Char) : List ChanRaw := findAllChanAux s.length s

/-! ### The legacy rule (`functionPattern`)

`FUNCTION_CALL:\s*(\w+)\((.*?)\)`  (no `(?s)` flag). -/

/-- Lazy argument scan `(.*?)\)`: stops at the nearest `)`, fails at end of
input or at a newline. -/
def scanArgs : List Char → Option (List Char)
  | [] => none
  | c :: cs =>
    if c == ')' then some []
    else if c == '\n' then none
    else (scanArgs cs).map (c :: ·)

/-- `functionPattern` anchored at the start of `s`; yields (name, args). -/
def matchFuncAt (s : List Char) : Option (List Char × List Char) :=
  if leadsWith funcLit s then
    let s1 := (s.drop funcLit.length).dropWhile isRegexSpace
    let name := s1.takeWhile isWordChar
    if name.isEmpty then none
    else
      match s1.dropWhile isWordChar with
      | '(' :: s2 => (scanArgs s2).map (fun args => (name, args))
      | _ => none
  else none

/-- `FindStringSubmatch` for `functionPattern`: the leftmost match. -/
def findFuncAux : Nat → List Char → Option (List Char × List Char)
  | 0, _ => none
  | _ + 1, [] => matchFuncAt []
  | fuel + 1, c :: cs =>
    match matchFuncAt (c :: cs) with
    | some r => some r
    | none => findFuncAux fuel cs

/-- The leftmost `functionPattern` match of the input, if any. -/
def findFunc (s : List Char) : Option (List Char × List Char) :=
  findFuncAux s.length s

/-! ### `ParseResponse` and the derived accessors -/

/-- Message construction for one full-form match: role defaulting, content
trimming, and the `IsCall` check `strings.Contains(match[0], "<|call|>")`,
exactly as in the Go loop body. -/
def mkMsg1 (p : ParserConfig) (m : RawMatch) : Message :=
  { Role := if m.role.isEmpty then p.DefaultRole else m.role
    Channel := m.channel
    Content := trimSpace m.body
    To := m.toStr
    IsCall := containsTok callTok m.match0 }

/-- Message construction for one simplified-form match. -/
def mkMsg2 (p : ParserConfig) (m : ChanRaw) : Message :=
  { Role := p.DefaultRole
    Channel := m.channel
    Content := trimSpace m.body
    To := []
    IsCall := false }

/-- The full-form loop of `ParseResponse`: build messages in order, and in
strict mode abort on the first invalid channel, discarding everything
(`return nil, fmt.Errorf(...)`). -/
def buildFull (p : ParserConfig) : List RawMatch → List Message × Option (List Char)
  | [] => ([], none)
  | m :: ms =>
    let msg := mkMsg1 p m
    if p.StrictMode && !isValidChannel msg.Channel then
      ([], some (invalidChannelErr msg.Channel))
    else
      match buildFull p ms with
      | (_, some e) => ([], some e)
      | (rest, none) => (msg :: rest, none)

/-- The simplified-form loop of `ParseResponse`, same strict-mode abort. -/
def buildSimple (p : ParserConfig) : List ChanRaw → List Message × Option (List Char)
  | [] => ([], none)
  | m :: ms =>
    let msg := mkMsg2 p m
    if p.StrictMode && !isValidChannel msg.Channel then
      ([], some (invalidChannelErr msg.Channel))
    else
      match buildSimple p ms with
      | (_, some e) => ([], some e)
      | (rest, none) => (msg :: rest, none)

/-- The message synthesized by the legacy `FUNCTION_CALL:` rule. -/
def mkFuncMsg (p : ParserConfig) (name args : List Char) : Message :=
  { Role := p.DefaultRole
    Channel := chCommentary
    Content := args
    To := functionsDot ++ name
    IsCall := true }

/-- The plain-text fallback message. -/
def mkPlainMsg (p : ParserConfig) (content : List Char) : Message :=
  { Role := p.DefaultRole
    Channel := chFinal
    Content := content
    To := []
    IsCall := false }

/-- Go `Parser.ParseResponse`: the four rules in precedence order; the pair
is (messages, error), and every error is returned as `([], some e)` just as
the Go code returns `nil, err`. -/
def ParseResponse (p : ParserConfig) (content : List Char) :
    List Message × Option (List Char) :=
  if content.isEmpty then ([], none)
  else
    match buildFull p (findAllMessage content) with
    | (_, some e) => ([], some e)
    | (msgs1, none) =>
      match
        (if msgs1.isEmpty && containsTok chanTok content then
          buildSimple p (findAllChannel content)
        else (msgs1, none)) with
      | (_, some e) => ([], some e)
      | (msgs2, none) =>
        let msgs3 :=
          if msgs2.isEmpty && containsTok funcLit content then
            match findFunc content with
            | some (name, args) => [mkFuncMsg p name args]
            | none => []
          else msgs2
        let msgs4 :=
          if msgs3.isEmpty && !p.StrictMode && !content.isEmpty then
            [mkPlainMsg p content]
          else msgs3
        (msgs4, none)

/-- A variant of `ParseResponse` with the simplified-form branch deleted,
used to state that the branch is dead code. -/
def ParseResponseNoSimple (p : ParserConfig) (content : List Char) :
    List Message × Option (List Char) :=
  if content.isEmpty then ([], none)
  else
    match buildFull p (findAllMessage content) with
    | (_, some e) => ([], some e)
    | (msgs1, none) =>
      let msgs3 :=
        if msgs1.isEmpty && containsTok funcLit content then
          match findFunc content with
          | some (name, args) => [mkFuncMsg p name args]
          | none => []
        else msgs1
      let msgs4 :=
        if msgs3.isEmpty && !p.StrictMode && !content.isEmpty then
          [mkPlainMsg p content]
        else msgs3
      (msgs4, none)

/-- The scan loop of `ExtractFinalMessage`: first `final`-channel non-call
message whose content does not begin with `FUNCTION_CALL:`. -/
def findFinalLoop : List Message → List Char
  | [] => []
  | m :: ms =>
    if m.Channel == chFinal && !m.IsCall then
      if !leadsWith funcLit m.Content then m.Content
      else findFinalLoop ms
    else findFinalLoop ms

/-- Go `Parser.ExtractFinalMessage`. -/
def ExtractFinalMessage (p : ParserConfig) (content : List Char) : List Char :=
  let r := ParseResponse p content
  if r.2 ≠ none ∨ r.1 = [] then
    if !p.StrictMode then content else []
  else findFinalLoop r.1

/-- The scan loop of `ExtractFunctionCall`: first message with
`IsCall && To != ""` whose target splits into at least two dot-separated
segments; the returned name is `parts[1]`. -/
def findCallLoop : List Message → Option (List Char × List Char)
  | [] => none
  | m :: ms =>
    if m.IsCall && !m.To.isEmpty then
      let parts := splitDot m.To
      if 2 ≤ parts.length then some (parts.getD 1 [], m.Content)
      else findCallLoop ms
    else findCallLoop ms

/-- Go `Parser.ExtractFunctionCall`. -/
def ExtractFunctionCall (p : ParserConfig) (content : List Char) :
    List Char × List Char × Bool :=
  let r := ParseResponse p content
  if r.2 ≠ none then ([], [], false)
  else
    match findCallLoop r.1 with
    | some (n, a) => (n, a, true)
    | none =>
      match findFunc content with
      | some (n, a) => (n, a, true)
      | none => ([], [], false)

/-! ### `ExtractJSON`

The JSON decoding itself is delegated by the Go code to the standard
library (`encoding/json.Unmarshal`), which is outside this repository; it
is therefore a parameter `decode` here.  The repository's own logic is the
brace location and the error wrapping. -/

def lbrace : Char := Char.ofNat 123

def rbrace : Char := Char.ofNat 125

/-- The error string `"no JSON found in content"`. -/
def noJSONErr : List Char :=
  ['n', 'o', ' ', 'J', 'S', 'O', 'N', ' ', 'f', 'o', 'u', 'n', 'd', ' ', 'i',
   'n', ' ', 'c', 'o', 'n', 't', 'e', 'n', 't']

/-- The error string `fmt.Errorf("failed to parse JSON: %w", err)`. -/
def malformedErr (e : List Char) : List Char :=
  ['f', 'a', 'i', 'l', 'e', 'd', ' ', 't', 'o', ' ', 'p', 'a', 'r', 's', 'e',
   ' ', 'J', 'S', 'O', 'N', ':', ' '] ++ e

/-- Go `Parser.ExtractJSON`, with the standard-library JSON decoder
abstracted as `decode`. -/
def ExtractJSON {α : Type} (decode : List Char → Except (List Char) α)
    (content : List Char) : Except (List Char) α :=
  match indexOfChar lbrace content, lastIndexOfChar rbrace content with
  | some i, some j =>
    if j < i then .error noJSONErr
    else
      match decode ((content.drop i).take (j + 1 - i)) with
      | .ok v => .ok v
      | .error e => .error (malformedErr e)
  | _, _ => .error noJSONErr

/-- The condition under which the Go code reports `no JSON found`. -/
def noJSONCond (content : List Char) : Prop :=
  match indexOfChar lbrace content, lastIndexOfChar rbrace content with
  | some i, some j => j < i
  | _, _ => True

/-! ### Predicates used to state the claims -/

/-- The selection predicate of `ExtractFinalMessage`'s scan loop. -/
def finalPred (m : Message) : Bool :=
  m.Channel == chFinal && !m.IsCall && !leadsWith funcLit m.Content

/-- The selection predicate of `ExtractFunctionCall`'s scan loop. -/
def callPred (m : Message) : Bool :=
  m.IsCall && !m.To.isEmpty && decide (2 ≤ (splitDot m.To).length)

/-- `u` contains no position (proper position of `u`, continuations
allowed to run into any extension `v`) at which the call token starts. -/
def NoCallStart (u : List Char) : Prop :=
  ∀ v j, j < u.length → leadsWith callTok ((u ++ v).drop j) = false

/-! ## Theorems -/

/-! ### Basic facts about `leadsWith` and `containsTok` -/

theorem leadsWith_iff {pat s : List Char} :
    leadsWith pat s = true ↔ ∃ t, s = pat ++ t := by
  induction pat generalizing s with
  | nil => simp [leadsWith]
  | cons p ps ih =>
    cases s with
    | nil => simp [leadsWith]
    | cons c cs =>
      simp only [leadsWith, Bool.and_eq_true, beq_iff_eq, ih, List.cons_append,
        List.cons.injEq]
      aesop

theorem leadsWith_self_append (pat v : List Char) :
    leadsWith pat (pat ++ v) = true :=
  leadsWith_iff.2 ⟨v, rfl⟩

theorem leadsWith_refl (pat : List Char) : leadsWith pat pat = true :=
  leadsWith_iff.2 ⟨[], by simp⟩

theorem leadsWith_eq_append {pat s : List Char} (h : leadsWith pat s = true) :
    s = pat ++ s.drop pat.length := by
  obtain ⟨t, rfl⟩ := leadsWith_iff.1 h
  simp [List.drop_left]

theorem leadsWith_mono {pat u : List Char} (v : List Char)
    (h : leadsWith pat u = true) : leadsWith pat (u ++ v) = true := by
  obtain ⟨t, rfl⟩ := leadsWith_iff.1 h
  simpa [List.append_assoc] using leadsWith_self_append pat (t ++ v)

theorem leadsWith_false_of_append {pat u v : List Char}
    (h : leadsWith pat (u ++ v) = false) : leadsWith pat u = false := by
  by_contra hne
  rw [Bool.not_eq_false] at hne
  simp [leadsWith_mono v hne] at h

theorem containsTok_iff {pat l : List Char} :
    containsTok pat l = true ↔ ∃ j, leadsWith pat (l.drop j) = true := by
  induction l with
  | nil =>
    simp only [containsTok]
    constructor
    · intro h; exact ⟨0, h⟩
    · rintro ⟨j, hj⟩; simpa using hj
  | cons c cs ih =>
    simp only [containsTok, Bool.or_eq_true, ih]
    constructor
    · rintro (h | ⟨j, hj⟩)
      · exact ⟨0, h⟩
      · exact ⟨j + 1, hj⟩
    · rintro ⟨j, hj⟩
      cases j with
      | zero => exact Or.inl hj
      | succ j => exact Or.inr ⟨j, hj⟩

theorem containsTok_append_right {pat b : List Char} (a : List Char)
    (h : containsTok pat b = true) : containsTok pat (a ++ b) = true := by
  induction a with
  | nil => simpa
  | cons c cs ih => simp [containsTok, ih]

theorem containsTok_at_end (a pat : List Char) :
    containsTok pat (a ++ pat) = true :=
  containsTok_append_right a
    (containsTok_iff.2 ⟨0, by simpa using leadsWith_refl pat⟩)

/-! ### `NoCallStart`: lists in which no occurrence of the call token can
begin, whatever follows them -/

theorem noCallStart_nil : NoCallStart [] := by
  intro v j hj; simp at hj

theorem noCallStart_append {a b : List Char} (ha : NoCallStart a)
    (hb : NoCallStart b) : NoCallStart (a ++ b) := by
  intro v j hj
  rcases Nat.lt_or_ge j a.length with h | h
  · have := ha (b ++ v) j h
    simpa [List.append_assoc] using this
  · have hj' : j - a.length < b.length := by
      simp [List.length_append] at hj; omega
    have hdrop : ((a ++ b) ++ v).drop j = (b ++ v).drop (j - a.length) := by
      rw [List.append_assoc]
      conv_lhs => rw [show j = a.length + (j - a.length) from by omega]
      exact List.drop_append _
    rw [hdrop]
    exact hb v (j - a.length) hj'

theorem leadsWith_callTok_ne {c : Char} (w : List Char) (hc : c ≠ '<') :
    leadsWith callTok (c :: w) = false := by
  have hb : ('<' == c) = false := beq_eq_false_iff_ne.2 fun he => hc he.symm
  simp [callTok, leadsWith, hb]

theorem noCallStart_of_ne {u : List Char} (h : ∀ c ∈ u, c ≠ '<') :
    NoCallStart u := by
  intro v j hj
  have hlt : j < (u ++ v).length := by simp [List.length_append]; omega
  rw [List.drop_eq_getElem_cons hlt, List.getElem_append_left hj]
  exact leadsWith_callTok_ne _ (h _ (List.getElem_mem hj))

theorem noCallStart_token {t0 : Char} {ts : List Char}
    (h0 : ∀ v, leadsWith callTok (t0 :: ts ++ v) = false)
    (h1 : ∀ c ∈ ts, c ≠ '<') : NoCallStart (t0 :: ts) := by
  intro v j hj
  cases j with
  | zero => simpa using h0 v
  | succ j =>
    have hj' : j < ts.length := by simpa using hj
    have hstep : ((t0 :: ts) ++ v).drop (j + 1) = (ts ++ v).drop j := rfl
    rw [hstep]
    have hlt : j < (ts ++ v).length := by simp [List.length_append]; omega
    rw [List.drop_eq_getElem_cons hlt, List.getElem_append_left hj']
    exact leadsWith_callTok_ne _ (h1 _ (List.getElem_mem hj'))

theorem noCallStart_startTok : NoCallStart startTok := by
  show NoCallStart (['<', '|', 's', 't', 'a', 'r', 't', '|', '>'] : List Char)
  exact noCallStart_token (fun v => by simp [callTok, leadsWith]) (by decide)

theorem noCallStart_chanTok : NoCallStart chanTok := by
  show NoCallStart (['<', '|', 'c', 'h', 'a', 'n', 'n', 'e', 'l', '|', '>'] : List Char)
  exact noCallStart_token (fun v => by simp [callTok, leadsWith]) (by decide)

theorem noCallStart_constrainTok : NoCallStart constrainTok := by
  show NoCallStart (['<', '|', 'c', 'o', 'n', 's', 't', 'r', 'a', 'i', 'n', '|', '>'] : List Char)
  exact noCallStart_token (fun v => by simp [callTok, leadsWith]) (by decide)

theorem noCallStart_msgTok : NoCallStart msgTok := by
  show NoCallStart (['<', '|', 'm', 'e', 's', 's', 'a', 'g', 'e', '|', '>'] : List Char)
  exact noCallStart_token (fun v => by simp [callTok, leadsWith]) (by decide)

theorem isWordChar_ne_lt {c : Char} (h : isWordChar c = true) : c ≠ '<' := by
  intro he; subst he; simp [isWordChar] at h

theorem isToChar_ne_lt {c : Char} (h : isToChar c = true) : c ≠ '<' := by
  intro he; subst he; simp [isToChar, isWordChar] at h

theorem isRegexSpace_ne_lt {c : Char} (h : isRegexSpace c = true) : c ≠ '<' := by
  intro he; subst he; simp [isRegexSpace] at h

theorem noCallStart_takeWhile_word (l : List Char) :
    NoCallStart (l.takeWhile isWordChar) :=
  noCallStart_of_ne fun c hc => isWordChar_ne_lt (List.mem_takeWhile_imp hc)

theorem containsTok_callTok_append_false {pre bt : List Char}
    (hpre : NoCallStart pre) (hbt : containsTok callTok bt = false) :
    containsTok callTok (pre ++ bt) = false := by
  by_contra hc
  rw [Bool.not_eq_false] at hc
  obtain ⟨j, hj⟩ := containsTok_iff.1 hc
  rcases Nat.lt_or_ge j pre.length with hlt | hge
  · rw [hpre bt j hlt] at hj
    exact Bool.false_ne_true hj
  · have hdrop : (pre ++ bt).drop j = bt.drop (j - pre.length) := by
      conv_lhs => rw [show j = pre.length + (j - pre.length) from by omega]
      exact List.drop_append _
    rw [hdrop] at hj
    have hin : containsTok callTok bt = true := containsTok_iff.2 ⟨_, hj⟩
    rw [hbt] at hin
    exact Bool.false_ne_true hin

/-! ### The lazy body scan: decomposition and absence of terminators -/

theorem scanBody_decomp (s : List Char) :
    s = (scanBody s).body ++ termStr (scanBody s).term ++ (scanBody s).rest := by
  induction s with
  | nil => rfl
  | cons c cs ih =>
    by_cases he : leadsWith endTok (c :: cs) = true
    · rw [scanBody]
      simp only [he, if_true]
      simpa [termStr] using leadsWith_eq_append he
    · by_cases hc : leadsWith callTok (c :: cs) = true
      · rw [scanBody]
        simp only [he, hc, if_true, if_false, Bool.false_eq_true]
        simpa [termStr] using leadsWith_eq_append hc
      · by_cases hr : leadsWith returnTok (c :: cs) = true
        · rw [scanBody]
          simp only [he, hc, hr, if_true, if_false, Bool.false_eq_true]
          simpa [termStr] using leadsWith_eq_append hr
        · rw [scanBody]
          simp only [he, hc, hr, if_false, Bool.false_eq_true]
          simpa using ih

theorem scanBody_no_term_start (s : List Char) :
    ∀ j, j < (scanBody s).body.length →
      leadsWith endTok (s.drop j) = false ∧
      leadsWith callTok (s.drop j) = false ∧
      leadsWith returnTok (s.drop j) = false := by
  induction s with
  | nil => intro j hj; simp [scanBody] at hj
  | cons c cs ih =>
    by_cases he : leadsWith endTok (c :: cs) = true
    · intro j hj; rw [scanBody] at hj; simp [he] at hj
    · by_cases hc : leadsWith callTok (c :: cs) = true
      · intro j hj; rw [scanBody] at hj; simp [he, hc] at hj
      · by_cases hr : leadsWith returnTok (c :: cs) = true
        · intro j hj; rw [scanBody] at hj; simp [he, hc, hr] at hj
        · intro j hj
          rw [scanBody] at hj
          simp only [he, hc, hr, if_false, Bool.false_eq_true] at hj
          cases j with
          | zero =>
            exact ⟨by simpa using he, by simpa using hc, by simpa using hr⟩
          | succ j =>
            have hj' : j < (scanBody cs).body.length := by
              simpa using Nat.lt_of_succ_lt_succ (by simpa using hj)
            simpa using ih j hj'

theorem scanBody_call_free (s : List Char)
    (h : (scanBody s).term ≠ some Term.tCall) :
    containsTok callTok ((scanBody s).body ++ termStr (scanBody s).term) = false := by
  by_contra hcon
  rw [Bool.not_eq_false] at hcon
  obtain ⟨j, hj⟩ := containsTok_iff.1 hcon
  rcases Nat.lt_or_ge j (scanBody s).body.length with hlt | hge
  · have hdrop : ((scanBody s).body ++ termStr (scanBody s).term).drop j =
        (scanBody s).body.drop j ++ termStr (scanBody s).term :=
      List.drop_append_of_le_length (Nat.le_of_lt hlt)
    rw [hdrop] at hj
    have hmono := leadsWith_mono (scanBody s).rest hj
    have hsdrop : s.drop j = (scanBody s).body.drop j ++
        termStr (scanBody s).term ++ (scanBody s).rest := by
      conv_lhs => rw [scanBody_decomp s]
      rw [List.append_assoc, List.drop_append_of_le_length (Nat.le_of_lt hlt),
        ← List.append_assoc]
    rw [← hsdrop] at hmono
    rw [(scanBody_no_term_start s j hlt).2.1] at hmono
    exact Bool.false_ne_true hmono
  · have hdrop : ((scanBody s).body ++ termStr (scanBody s).term).drop j =
        (termStr (scanBody s).term).drop (j - (scanBody s).body.length) := by
      conv_lhs =>
        rw [show j = (scanBody s).body.length + (j - (scanBody s).body.length)
          from by omega]
      exact List.drop_append _
    rw [hdrop] at hj
    have hterm : containsTok callTok (termStr (scanBody s).term) = true :=
      containsTok_iff.2 ⟨_, hj⟩
    rcases ht : (scanBody s).term with _ | t
    · rw [ht] at hterm
      exact absurd hterm (by decide)
    · cases t with
      | tEnd =>
        rw [ht] at hterm
        exact absurd hterm (by decide)
      | tCall => exact h ht
      | tReturn =>
        rw [ht] at hterm
        exact absurd hterm (by decide)

theorem scanBody_call_has (s : List Char)
    (h : (scanBody s).term = some Term.tCall) :
    containsTok callTok ((scanBody s).body ++ termStr (scanBody s).term) = true := by
  rw [h]
  exact containsTok_at_end _ _

/-! ### The optional groups: decomposition -/

theorem mem_toEq_ne_lt : ∀ c ∈ toEq, c ≠ '<' := by decide

theorem matchToGroup_decomp (s : List Char) :
    s = (matchToGroup s).part ++ (matchToGroup s).rest ∧
      ∀ c ∈ (matchToGroup s).part, c ≠ '<' := by
  by_cases hw : (s.takeWhile isRegexSpace).isEmpty
  · simp [matchToGroup, hw]
  · by_cases hto : leadsWith toEq (s.dropWhile isRegexSpace) = true
    · by_cases htm :
        (((s.dropWhile isRegexSpace).drop toEq.length).takeWhile isToChar).isEmpty
      · simp [matchToGroup, hw, hto, htm]
      · have hpart : (matchToGroup s).part =
            s.takeWhile isRegexSpace ++ toEq ++
              ((s.dropWhile isRegexSpace).drop toEq.length).takeWhile isToChar := by
          simp [matchToGroup, hw, hto, htm]
        have hrest : (matchToGroup s).rest =
            ((s.dropWhile isRegexSpace).drop toEq.length).dropWhile isToChar := by
          simp [matchToGroup, hw, hto, htm]
        constructor
        · rw [hpart, hrest]
          conv_lhs => rw [← List.takeWhile_append_dropWhile isRegexSpace s]
          conv_lhs => rw [leadsWith_eq_append hto]
          conv_lhs =>
            rw [← List.takeWhile_append_dropWhile isToChar
              ((s.dropWhile isRegexSpace).drop toEq.length)]
          simp [List.append_assoc]
        · rw [hpart]
          intro c hc
          rcases List.mem_append.1 hc with hc' | hc'
          · rcases List.mem_append.1 hc' with hc'' | hc''
            · exact isRegexSpace_ne_lt (List.mem_takeWhile_imp hc'')
            · exact mem_toEq_ne_lt c hc''
          · exact isToChar_ne_lt (List.mem_takeWhile_imp hc')
    · simp [matchToGroup, hw, hto]


theorem matchConstrainGroup_decomp (s : List Char) :
    s = (matchConstrainGroup s).part ++ (matchConstrainGroup s).rest ∧
      NoCallStart (matchConstrainGroup s).part := by
  by_cases hcon : leadsWith constrainTok (s.dropWhile isRegexSpace) = true
  · by_cases hw :
      (((s.dropWhile isRegexSpace).drop constrainTok.length).takeWhile
        isWordChar).isEmpty
    · simp [matchConstrainGroup, hcon, hw, noCallStart_nil]
    · have hpart : (matchConstrainGroup s).part =
          s.takeWhile isRegexSpace ++ constrainTok ++
            ((s.dropWhile isRegexSpace).drop constrainTok.length).takeWhile
              isWordChar := by
        simp [matchConstrainGroup, hcon, hw]
      have hrest : (matchConstrainGroup s).rest =
          ((s.dropWhile isRegexSpace).drop constrainTok.length).dropWhile
            isWordChar := by
        simp [matchConstrainGroup, hcon, hw]
      constructor
      · rw [hpart, hrest]
        conv_lhs => rw [← List.takeWhile_append_dropWhile isRegexSpace s]
        conv_lhs => rw [leadsWith_eq_append hcon]
        conv_lhs =>
          rw [← List.takeWhile_append_dropWhile isWordChar
            ((s.dropWhile isRegexSpace).drop constrainTok.length)]
        simp [List.append_assoc]
      · rw [hpart]
        refine noCallStart_append (noCallStart_append ?_ noCallStart_constrainTok) ?_
        · exact noCallStart_of_ne fun c hc =>
            isRegexSpace_ne_lt (List.mem_takeWhile_imp hc)
        · exact noCallStart_takeWhile_word _
  · simp [matchConstrainGroup, hcon, noCallStart_nil]

/-! ### Decomposition of a full-form match -/

theorem matchAfterStart_decomp {sp s1 : List Char} {r : RawMatch}
    (hsp : NoCallStart sp) (h : matchAfterStart sp s1 = some r) :
    ∃ pre s7, NoCallStart pre ∧ scanBody s7 = ⟨r.body, r.term, r.rest⟩ ∧
      r.match0 = pre ++ (r.body ++ termStr r.term) ∧
      sp ++ s1 = r.match0 ++ r.rest ∧ r.match0 ≠ [] := by
  simp only [matchAfterStart] at h
  by_cases hch : leadsWith chanTok (s1.dropWhile isWordChar) = true
  case neg => rw [if_neg hch] at h; exact absurd h (by simp)
  rw [if_pos hch] at h
  by_cases hce :
      (((s1.dropWhile isWordChar).drop chanTok.length).takeWhile isWordChar).isEmpty
  case pos => rw [if_pos hce] at h; exact absurd h (by simp)
  rw [if_neg hce] at h
  by_cases hmsg : leadsWith msgTok
      (matchConstrainGroup (matchToGroup
        (((s1.dropWhile isWordChar).drop chanTok.length).dropWhile
          isWordChar)).rest).rest = true
  case neg => rw [if_neg hmsg] at h; exact absurd h (by simp)
  rw [if_pos hmsg] at h
  obtain rfl := (Option.some.inj h).symm
  refine ⟨sp ++ s1.takeWhile isWordChar ++ chanTok ++
    ((s1.dropWhile isWordChar).drop chanTok.length).takeWhile isWordChar ++
    (matchToGroup (((s1.dropWhile isWordChar).drop chanTok.length).dropWhile
      isWordChar)).part ++
    (matchConstrainGroup (matchToGroup
      (((s1.dropWhile isWordChar).drop chanTok.length).dropWhile
        isWordChar)).rest).part ++ msgTok,
    (matchConstrainGroup (matchToGroup
      (((s1.dropWhile isWordChar).drop chanTok.length).dropWhile
        isWordChar)).rest).rest.drop msgTok.length, ?_, rfl, ?_, ?_, ?_⟩
  · refine noCallStart_append (noCallStart_append (noCallStart_append
      (noCallStart_append (noCallStart_append (noCallStart_append hsp
        (noCallStart_takeWhile_word _)) noCallStart_chanTok)
        (noCallStart_takeWhile_word _)) ?_) ?_) noCallStart_msgTok
    · exact noCallStart_of_ne (matchToGroup_decomp _).2
    · exact (matchConstrainGroup_decomp _).2
  · simp [List.append_assoc]
  · conv_lhs => rw [← List.takeWhile_append_dropWhile isWordChar s1]
    conv_lhs => rw [leadsWith_eq_append hch]
    conv_lhs =>
      rw [← List.takeWhile_append_dropWhile isWordChar
        ((s1.dropWhile isWordChar).drop chanTok.length)]
    conv_lhs =>
      rw [(matchToGroup_decomp
        (((s1.dropWhile isWordChar).drop chanTok.length).dropWhile isWordChar)).1]
    conv_lhs =>
      rw [(matchConstrainGroup_decomp (matchToGroup
        (((s1.dropWhile isWordChar).drop chanTok.length).dropWhile
          isWordChar)).rest).1]
    conv_lhs => rw [leadsWith_eq_append hmsg]
    conv_lhs =>
      rw [scanBody_decomp ((matchConstrainGroup (matchToGroup
        (((s1.dropWhile isWordChar).drop chanTok.length).dropWhile
          isWordChar)).rest).rest.drop msgTok.length)]
    simp [List.append_assoc]
  · intro he
    have hcl := congrArg List.length he
    simp [List.length_append, chanTok] at hcl

theorem matchMessageAt_decomp {s : List Char} {r : RawMatch}
    (h : matchMessageAt s = some r) :
    ∃ pre s7, NoCallStart pre ∧ scanBody s7 = ⟨r.body, r.term, r.rest⟩ ∧
      r.match0 = pre ++ (r.body ++ termStr r.term) ∧
      s = r.match0 ++ r.rest ∧ r.match0 ≠ [] := by
  rw [matchMessageAt] at h
  by_cases hst : leadsWith startTok s = true
  · rw [if_pos hst] at h
    obtain ⟨pre, s7, h1, h2, h3, h4, h5⟩ :=
      matchAfterStart_decomp noCallStart_startTok h
    refine ⟨pre, s7, h1, h2, h3, ?_, h5⟩
    rw [← h4]
    exact leadsWith_eq_append hst
  · rw [if_neg hst] at h
    obtain ⟨pre, s7, h1, h2, h3, h4, h5⟩ := matchAfterStart_decomp noCallStart_nil h
    exact ⟨pre, s7, h1, h2, h3, by simpa using h4, h5⟩

/-- The `IsCall` computation `strings.Contains(match[0], "<|call|>")` agrees
with the terminator of the match. -/
theorem matchMessageAt_isCall {s : List Char} {r : RawMatch}
    (h : matchMessageAt s = some r) :
    containsTok callTok r.match0 = (r.term == some Term.tCall) := by
  obtain ⟨pre, s7, hpre, hsb, hm0, _, _⟩ := matchMessageAt_decomp h
  by_cases ht : r.term = some Term.tCall
  · have hterm : (scanBody s7).term = some Term.tCall := by rw [hsb]; exact ht
    have hhas := scanBody_call_has s7 hterm
    rw [hsb] at hhas
    rw [hm0, ht]
    simp only [beq_self_eq_true]
    exact containsTok_append_right pre (by simpa [ht] using hhas)
  · have hterm : (scanBody s7).term ≠ some Term.tCall := by rw [hsb]; exact ht
    have hfree := scanBody_call_free s7 hterm
    rw [hsb] at hfree
    rw [hm0]
    rw [containsTok_callTok_append_false hpre hfree]
    exact (beq_eq_false_iff_ne.2 ht).symm

/-! ### FindAll: membership and emptiness -/

theorem matchMessageAt_nil : matchMessageAt [] = none := rfl

theorem findAllMsgAux_mem {fuel : Nat} {s : List Char} {m : RawMatch}
    (h : m ∈ findAllMsgAux fuel s) : ∃ t, matchMessageAt t = some m := by
  induction fuel generalizing s with
  | zero => simp [findAllMsgAux] at h
  | succ fuel ih =>
    cases s with
    | nil => simp [findAllMsgAux] at h
    | cons c cs =>
      cases hm : matchMessageAt (c :: cs) with
      | some r =>
        simp only [findAllMsgAux, hm, List.mem_cons] at h
        rcases h with rfl | h'
        · exact ⟨c :: cs, hm⟩
        · exact ih h'
      | none =>
        simp only [findAllMsgAux, hm] at h
        exact ih h

theorem mem_findAllMessage {s : List Char} {m : RawMatch}
    (h : m ∈ findAllMessage s) : ∃ t, matchMessageAt t = some m :=
  findAllMsgAux_mem h

/-- Every full-form match consumes at least one character, so one unit of
fuel per input character is enough for the scan over all positions. -/
theorem matchMessageAt_consumes {s : List Char} {r : RawMatch}
    (h : matchMessageAt s = some r) : r.rest.length < s.length := by
  obtain ⟨pre, s7, -, -, -, hs, hne⟩ := matchMessageAt_decomp h
  have h1 : s.length = r.match0.length + r.rest.length := by
    rw [hs, List.length_append]
  have h3 : 0 < r.match0.length := List.length_pos.2 hne
  omega

/-- `findAllMsgAux` is independent of the fuel once the fuel covers the
input length: the fuel in `findAllMessage` never truncates the match list. -/
theorem findAllMsgAux_fuel :
    ∀ (n : Nat) (s : List Char) (f1 f2 : Nat), s.length ≤ n →
      s.length ≤ f1 → s.length ≤ f2 →
      findAllMsgAux f1 s = findAllMsgAux f2 s := by
  intro n
  induction n with
  | zero =>
    intro s f1 f2 hn _ _
    have hs : s = [] := List.length_eq_zero.1 (Nat.le_zero.1 hn)
    subst hs
    cases f1 <;> cases f2 <;> rfl
  | succ n ih =>
    intro s f1 f2 hn h1 h2
    cases s with
    | nil => cases f1 <;> cases f2 <;> rfl
    | cons c cs =>
      simp only [List.length_cons] at hn h1 h2
      cases f1 with
      | zero => omega
      | succ f1 =>
        cases f2 with
        | zero => omega
        | succ f2 =>
          simp only [findAllMsgAux]
          cases hm : matchMessageAt (c :: cs) with
          | some r =>
            dsimp only
            have hlt := matchMessageAt_consumes hm
            simp only [List.length_cons] at hlt
            rw [ih r.rest f1 f2 (by omega) (by omega) (by omega)]
          | none =>
            dsimp only
            rw [ih cs f1 f2 (by omega) (by omega) (by omega)]

theorem findAllMsgAux_eq_findAllMessage {s : List Char} {f : Nat}
    (hf : s.length ≤ f) : findAllMsgAux f s = findAllMessage s :=
  findAllMsgAux_fuel s.length s f s.length (Nat.le_refl _) hf (Nat.le_refl _)

theorem findAllMsgAux_nil_all {s : List Char} {fuel : Nat}
    (hf : s.length ≤ fuel) (h : findAllMsgAux fuel s = []) :
    ∀ j, matchMessageAt (s.drop j) = none := by
  induction s generalizing fuel with
  | nil => intro j; simpa using matchMessageAt_nil
  | cons c cs ih =>
    cases fuel with
    | zero => simp at hf
    | succ fuel =>
      intro j
      cases hm : matchMessageAt (c :: cs) with
      | some r => simp [findAllMsgAux, hm] at h
      | none =>
        simp only [findAllMsgAux, hm] at h
        cases j with
        | zero => simpa using hm
        | succ j =>
          have hf' : cs.length ≤ fuel := by simpa using hf
          simpa using ih hf' h j

theorem findAllMessage_nil_all {s : List Char} (h : findAllMessage s = []) :
    ∀ j, matchMessageAt (s.drop j) = none :=
  findAllMsgAux_nil_all (Nat.le_refl _) h

theorem findAllChanAux_eq_nil {s : List Char} {fuel : Nat}
    (h : ∀ j, matchChannelAt (s.drop j) = none) : findAllChanAux fuel s = [] := by
  induction s generalizing fuel with
  | nil => cases fuel <;> rfl
  | cons c cs ih =>
    cases fuel with
    | zero => rfl
    | succ fuel =>
      have h0 : matchChannelAt (c :: cs) = none := by simpa using h 0
      simp only [findAllChanAux, h0]
      exact ih fun j => by simpa using h (j + 1)

/-! ### A simplified-form match yields a full-form match at the same spot -/

theorem lw_startTok_chanTok (v : List Char) :
    leadsWith startTok (chanTok ++ v) = false := by
  simp [startTok, chanTok, leadsWith]

theorem lw_constrainTok_msgTok (v : List Char) :
    leadsWith constrainTok (msgTok ++ v) = false := by
  simp [constrainTok, msgTok, leadsWith]

theorem isWordChar_lt : isWordChar '<' = false := by decide

theorem isRegexSpace_lt : isRegexSpace '<' = false := by decide

theorem matchChannelAt_imp_message {s : List Char} {cr : ChanRaw}
    (h : matchChannelAt s = some cr) : ∃ r, matchMessageAt s = some r := by
  rw [matchChannelAt] at h
  by_cases hch : leadsWith chanTok s = true
  case neg => rw [if_neg hch] at h; exact absurd h (by simp)
  rw [if_pos hch] at h
  obtain ⟨t, rfl⟩ := leadsWith_iff.1 hch
  rw [List.drop_left] at h
  by_cases hce : (t.takeWhile isWordChar).isEmpty
  case pos => rw [if_pos hce] at h; exact absurd h (by simp)
  rw [if_neg hce] at h
  by_cases hmsg : leadsWith msgTok (t.dropWhile isWordChar) = true
  case neg => rw [if_neg hmsg] at h; exact absurd h (by simp)
  have htw : (chanTok ++ t).takeWhile isWordChar = [] := by
    simp [chanTok, List.takeWhile_cons, isWordChar_lt]
  have hdw : (chanTok ++ t).dropWhile isWordChar = chanTok ++ t := by
    simp [chanTok, List.dropWhile_cons, isWordChar_lt]
  obtain ⟨u, hu⟩ := leadsWith_iff.1 hmsg
  have h1 : (msgTok ++ u).takeWhile isRegexSpace = [] := by
    simp [msgTok, List.takeWhile_cons, isRegexSpace_lt]
  have h2 : matchToGroup (msgTok ++ u) = ⟨[], [], msgTok ++ u⟩ := by
    rw [matchToGroup]
    simp [h1]
  have h3 : (msgTok ++ u).dropWhile isRegexSpace = msgTok ++ u := by
    simp [msgTok, List.dropWhile_cons, isRegexSpace_lt]
  have h4 : matchConstrainGroup (msgTok ++ u) = ⟨[], msgTok ++ u⟩ := by
    rw [matchConstrainGroup]
    rw [h3]
    rw [if_neg (by simp [lw_constrainTok_msgTok])]
  rw [matchMessageAt, if_neg (by simp [lw_startTok_chanTok])]
  rw [matchAfterStart]
  simp only [htw, hdw]
  rw [if_pos (leadsWith_self_append chanTok t), List.drop_left]
  rw [if_neg hce]
  rw [hu, h2, h4]
  rw [if_pos (leadsWith_self_append msgTok u)]
  exact ⟨_, rfl⟩

/-! ### The strict-mode loops -/

theorem buildFull_relaxed {p : ParserConfig} (hp : p.StrictMode = false)
    (l : List RawMatch) : (buildFull p l).2 = none := by
  induction l with
  | nil => rfl
  | cons m ms ih =>
    simp only [buildFull]
    rw [if_neg (by simp [hp])]
    cases hb : buildFull p ms with
    | mk ms2 err =>
      cases err with
      | some e => rw [hb] at ih; simp at ih
      | none => simp

theorem buildSimple_relaxed {p : ParserConfig} (hp : p.StrictMode = false)
    (l : List ChanRaw) : (buildSimple p l).2 = none := by
  induction l with
  | nil => rfl
  | cons m ms ih =>
    simp only [buildSimple]
    rw [if_neg (by simp [hp])]
    cases hb : buildSimple p ms with
    | mk ms2 err =>
      cases err with
      | some e => rw [hb] at ih; simp at ih
      | none => simp

theorem buildFull_invalid {p : ParserConfig} (hp : p.StrictMode = true)
    {l : List RawMatch}
    (hex : ∃ m ∈ l, isValidChannel (mkMsg1 p m).Channel = false) :
    ∃ c, isValidChannel c = false ∧
      c ∈ l.map (fun m => (mkMsg1 p m).Channel) ∧
      buildFull p l = ([], some (invalidChannelErr c)) := by
  induction l with
  | nil => simp at hex
  | cons m ms ih =>
    by_cases hm : isValidChannel (mkMsg1 p m).Channel = false
    · refine ⟨(mkMsg1 p m).Channel, hm, by simp, ?_⟩
      simp only [buildFull]
      rw [if_pos (by simp [hp, hm])]
    · have hex' : ∃ x ∈ ms, isValidChannel (mkMsg1 p x).Channel = false := by
        rcases hex with ⟨x, hx, hfx⟩
        rcases List.mem_cons.1 hx with rfl | hx'
        · exact absurd hfx hm
        · exact ⟨x, hx', hfx⟩
      obtain ⟨c, hc1, hc2, hc3⟩ := ih hex'
      refine ⟨c, hc1, by rw [List.map_cons]; exact List.mem_cons_of_mem _ hc2, ?_⟩
      have hm' : isValidChannel (mkMsg1 p m).Channel = true := by simpa using hm
      simp only [buildFull]
      rw [if_neg (by simp [hp, hm']), hc3]

theorem buildSimple_invalid {p : ParserConfig} (hp : p.StrictMode = true)
    {l : List ChanRaw}
    (hex : ∃ m ∈ l, isValidChannel (mkMsg2 p m).Channel = false) :
    ∃ c, isValidChannel c = false ∧
      c ∈ l.map (fun m => (mkMsg2 p m).Channel) ∧
      buildSimple p l = ([], some (invalidChannelErr c)) := by
  induction l with
  | nil => simp at hex
  | cons m ms ih =>
    by_cases hm : isValidChannel (mkMsg2 p m).Channel = false
    · refine ⟨(mkMsg2 p m).Channel, hm, by simp, ?_⟩
      simp only [buildSimple]
      rw [if_pos (by simp [hp, hm])]
    · have hex' : ∃ x ∈ ms, isValidChannel (mkMsg2 p x).Channel = false := by
        rcases hex with ⟨x, hx, hfx⟩
        rcases List.mem_cons.1 hx with rfl | hx'
        · exact absurd hfx hm
        · exact ⟨x, hx', hfx⟩
      obtain ⟨c, hc1, hc2, hc3⟩ := ih hex'
      refine ⟨c, hc1, by rw [List.map_cons]; exact List.mem_cons_of_mem _ hc2, ?_⟩
      have hm' : isValidChannel (mkMsg2 p m).Channel = true := by simpa using hm
      simp only [buildSimple]
      rw [if_neg (by simp [hp, hm']), hc3]

theorem buildFull_err_nil {p : ParserConfig} {l : List RawMatch}
    {msgs : List Message} {e : List Char}
    (h : buildFull p l = (msgs, some e)) : msgs = [] := by
  induction l generalizing msgs e with
  | nil => simp [buildFull] at h
  | cons m ms ih =>
    simp only [buildFull] at h
    by_cases hc : (p.StrictMode && !isValidChannel (mkMsg1 p m).Channel) = true
    · rw [if_pos hc] at h
      simp only [Prod.mk.injEq] at h
      exact h.1.symm
    · rw [if_neg hc] at h
      cases hb : buildFull p ms with
      | mk ms2 err =>
        rw [hb] at h
        cases err with
        | some e2 =>
          simp only [Prod.mk.injEq] at h
          exact h.1.symm
        | none => simp at h

theorem buildSimple_err_nil {p : ParserConfig} {l : List ChanRaw}
    {msgs : List Message} {e : List Char}
    (h : buildSimple p l = (msgs, some e)) : msgs = [] := by
  induction l generalizing msgs e with
  | nil => simp [buildSimple] at h
  | cons m ms ih =>
    simp only [buildSimple] at h
    by_cases hc : (p.StrictMode && !isValidChannel (mkMsg2 p m).Channel) = true
    · rw [if_pos hc] at h
      simp only [Prod.mk.injEq] at h
      exact h.1.symm
    · rw [if_neg hc] at h
      cases hb : buildSimple p ms with
      | mk ms2 err =>
        rw [hb] at h
        cases err with
        | some e2 =>
          simp only [Prod.mk.injEq] at h
          exact h.1.symm
        | none => simp at h

theorem buildFull_err_strict {p : ParserConfig} {l : List RawMatch}
    {msgs : List Message} {e : List Char}
    (h : buildFull p l = (msgs, some e)) : p.StrictMode = true := by
  cases hp : p.StrictMode with
  | true => rfl
  | false =>
    have := buildFull_relaxed hp l
    rw [h] at this
    simp at this

theorem buildSimple_err_strict {p : ParserConfig} {l : List ChanRaw}
    {msgs : List Message} {e : List Char}
    (h : buildSimple p l = (msgs, some e)) : p.StrictMode = true := by
  cases hp : p.StrictMode with
  | true => rfl
  | false =>
    have := buildSimple_relaxed hp l
    rw [h] at this
    simp at this

theorem buildFull_ok_mem {p : ParserConfig} {l : List RawMatch}
    {msgs : List Message} (h : buildFull p l = (msgs, none)) :
    ∀ m ∈ msgs, ∃ raw ∈ l, m = mkMsg1 p raw := by
  induction l generalizing msgs with
  | nil =>
    simp only [buildFull, Prod.mk.injEq] at h
    rw [← h.1]
    simp
  | cons a l ih =>
    simp only [buildFull] at h
    by_cases hc : (p.StrictMode && !isValidChannel (mkMsg1 p a).Channel) = true
    · rw [if_pos hc] at h
      simp at h
    · rw [if_neg hc] at h
      cases hb : buildFull p l with
      | mk ms2 err =>
        rw [hb] at h
        cases err with
        | some e2 => simp at h
        | none =>
          simp only [Prod.mk.injEq] at h
          rw [← h.1]
          intro m hm
          rcases List.mem_cons.1 hm with rfl | hm'
          · exact ⟨a, List.mem_cons_self a l, rfl⟩
          · obtain ⟨raw, hraw, hraw2⟩ := ih hb m hm'
            exact ⟨raw, List.mem_cons_of_mem _ hraw, hraw2⟩

theorem buildFull_ok_cons {p : ParserConfig} {a : RawMatch} {l : List RawMatch}
    {msgs : List Message} (h : buildFull p (a :: l) = (msgs, none)) :
    ∃ rest, msgs = mkMsg1 p a :: rest := by
  simp only [buildFull] at h
  by_cases hc : (p.StrictMode && !isValidChannel (mkMsg1 p a).Channel) = true
  · rw [if_pos hc] at h
    simp at h
  · rw [if_neg hc] at h
    cases hb : buildFull p l with
    | mk ms2 err =>
      rw [hb] at h
      cases err with
      | some e2 => simp at h
      | none =>
        simp only [Prod.mk.injEq] at h
        exact ⟨ms2, h.1.symm⟩

/-! ### `ParseResponse`: errors and the relaxed mode -/

theorem ParseResponse_relaxed_ok {p : ParserConfig} (hp : p.StrictMode = false)
    (content : List Char) : (ParseResponse p content).2 = none := by
  rw [ParseResponse]
  by_cases hc : content.isEmpty
  · rw [if_pos hc]
  · rw [if_neg hc]
    have hb1 := buildFull_relaxed hp (findAllMessage content)
    generalize hb : buildFull p (findAllMessage content) = r1 at hb1 ⊢
    obtain ⟨msgs1, err1⟩ := r1
    simp only at hb1
    subst hb1
    dsimp only
    by_cases h2 : (msgs1.isEmpty && containsTok chanTok content) = true
    · rw [if_pos h2]
      have hs1 := buildSimple_relaxed hp (findAllChannel content)
      generalize hs : buildSimple p (findAllChannel content) = r2 at hs1 ⊢
      obtain ⟨msgs2, err2⟩ := r2
      simp only at hs1
      subst hs1
      simp
    · rw [if_neg h2]

theorem ParseResponse_err {p : ParserConfig} {content : List Char}
    {msgs : List Message} {e : List Char}
    (h : ParseResponse p content = (msgs, some e)) :
    msgs = [] ∧ p.StrictMode = true := by
  rw [ParseResponse] at h
  by_cases hc : content.isEmpty
  · rw [if_pos hc] at h
    simp at h
  · rw [if_neg hc] at h
    generalize hb : buildFull p (findAllMessage content) = r1 at h
    obtain ⟨msgs1, err1⟩ := r1
    cases err1 with
    | some e1 =>
      dsimp only at h
      simp only [Prod.mk.injEq] at h
      exact ⟨h.1.symm, buildFull_err_strict hb⟩
    | none =>
      dsimp only at h
      by_cases h2 : (msgs1.isEmpty && containsTok chanTok content) = true
      · rw [if_pos h2] at h
        generalize hs : buildSimple p (findAllChannel content) = r2 at h
        obtain ⟨msgs2, err2⟩ := r2
        cases err2 with
        | some e2 =>
          dsimp only at h
          simp only [Prod.mk.injEq] at h
          exact ⟨h.1.symm, buildSimple_err_strict hs⟩
        | none => simp at h
      · rw [if_neg h2] at h
        simp at h

/-! ### The scan loops as `find?` -/

theorem findFinalLoop_eq (l : List Message) :
    findFinalLoop l = ((l.find? finalPred).map Message.Content).getD [] := by
  induction l with
  | nil => rfl
  | cons m ms ih =>
    rw [findFinalLoop]
    cases hA : (m.Channel == chFinal) <;> cases hB : m.IsCall <;>
      cases hC : leadsWith funcLit m.Content <;>
      simp [finalPred, hA, hB, hC, List.find?_cons, ih]

theorem findCallLoop_eq (l : List Message) :
    findCallLoop l = (l.find? callPred).map
      (fun m => ((splitDot m.To).getD 1 [], m.Content)) := by
  induction l with
  | nil => rfl
  | cons m ms ih =>
    rw [findCallLoop]
    cases hA : m.IsCall <;> cases hB : m.To.isEmpty <;>
      by_cases hC : 2 ≤ (splitDot m.To).length <;>
      simp [callPred, hA, hB, hC, List.find?_cons, ih]

/-! ### `trimSpace` is idempotent -/

theorem dropWhile_head_not {p : Char → Bool} {l : List Char} {c : Char}
    (h : (l.dropWhile p).head? = some c) : p c = false := by
  induction l with
  | nil => simp [List.dropWhile] at h
  | cons a l ih =>
    rw [List.dropWhile_cons] at h
    by_cases hp : p a = true
    · rw [if_pos hp] at h
      exact ih h
    · rw [if_neg hp] at h
      simp only [List.head?_cons, Option.some.injEq] at h
      rw [← h]
      simpa using hp

theorem dropWhile_dropWhile (p : Char → Bool) (u : List Char) :
    (u.dropWhile p).dropWhile p = u.dropWhile p := by
  cases hu : u.dropWhile p with
  | nil => rfl
  | cons x xs =>
    have hx : p x = false := dropWhile_head_not (by rw [hu]; rfl)
    rw [List.dropWhile_cons, if_neg (by simp [hx])]

theorem trimSpace_dropWhile (s : List Char) :
    (trimSpace s).dropWhile isUniSpace = trimSpace s := by
  have ha : s.dropWhile isUniSpace = trimSpace s ++
      ((s.dropWhile isUniSpace).reverse.takeWhile isUniSpace).reverse := by
    conv_lhs => rw [← List.reverse_reverse (s.dropWhile isUniSpace)]
    conv_lhs =>
      rw [← List.takeWhile_append_dropWhile isUniSpace
        (s.dropWhile isUniSpace).reverse]
    rw [List.reverse_append]
    rfl
  cases hb : trimSpace s with
  | nil => rfl
  | cons x xs =>
    have hhead : (s.dropWhile isUniSpace).head? = some x := by
      rw [ha, hb]
      rfl
    have hx : isUniSpace x = false := dropWhile_head_not hhead
    rw [List.dropWhile_cons, if_neg (by simp [hx])]

theorem trimSpace_idem (s : List Char) : trimSpace (trimSpace s) = trimSpace s := by
  have h2 : (trimSpace s).reverse.dropWhile isUniSpace = (trimSpace s).reverse := by
    have hrev : (trimSpace s).reverse =
        (s.dropWhile isUniSpace).reverse.dropWhile isUniSpace := by
      unfold trimSpace
      rw [List.reverse_reverse]
    rw [hrev, dropWhile_dropWhile]
  calc trimSpace (trimSpace s)
      = (((trimSpace s).dropWhile isUniSpace).reverse.dropWhile isUniSpace).reverse :=
        rfl
    _ = ((trimSpace s).reverse.dropWhile isUniSpace).reverse := by
        rw [trimSpace_dropWhile]
    _ = (trimSpace s).reverse.reverse := by rw [h2]
    _ = trimSpace s := List.reverse_reverse _

theorem malformedErr_ne (e : List Char) : malformedErr e ≠ noJSONErr := by
  intro h
  simp [malformedErr, noJSONErr] at h

/-! ## The claims -/

/-- Claim C2: when extraction succeeds with at least one message,
`ExtractFinalMessage` returns the content of the first message that is on
the `final` channel, is not a call, and whose content does not begin with
`FUNCTION_CALL:` (the empty string when no such message exists); the
selected message is always on the `final` channel, so the content of an
`analysis`-channel message is never returned. -/
theorem claimC2 (p : ParserConfig) (content : List Char) (msgs : List Message)
    (h : ParseResponse p content = (msgs, none)) (hne : msgs ≠ []) :
    ExtractFinalMessage p content =
      ((msgs.find? finalPred).map Message.Content).getD [] ∧
    ∀ m, msgs.find? finalPred = some m → m.Channel = chFinal := by
  constructor
  · rw [ExtractFinalMessage]
    simp only [h]
    rw [if_neg (by simp [hne])]
    exact findFinalLoop_eq msgs
  · intro m hm
    have hp := List.find?_some hm
    simp [finalPred] at hp
    tauto

/-- Claim C2 witness at the package's own mixed-channel test input. -/
theorem claimC2_witness :
    ExtractFinalMessage DefaultConfig
        "<|channel|>analysis<|message|>Thinking...<|end|><|channel|>final<|message|>Hello!<|end|>".toList =
      "Hello!".toList := by
  have h := claimC2 DefaultConfig
    "<|channel|>analysis<|message|>Thinking...<|end|><|channel|>final<|message|>Hello!<|end|>".toList
    [⟨"assistant".toList, chAnalysis, "Thinking...".toList, [], false⟩,
     ⟨"assistant".toList, chFinal, "Hello!".toList, [], false⟩]
    (by decide) (by decide)
  rw [h.1]
  decide

/-- Claim C3 counterexample: on the input
`<|channel|>bogus<|message|>x<|end|>`, extraction fails under strict
validation, yet the relaxed extractor's `ExtractFinalMessage` returns the
empty string, not the original text — the claim's relaxed half is false. -/
theorem claimC3_cex :
    ParseResponse StrictConfig "<|channel|>bogus<|message|>x<|end|>".toList =
      ([], some (invalidChannelErr "bogus".toList)) ∧
    ExtractFinalMessage DefaultConfig "<|channel|>bogus<|message|>x<|end|>".toList ≠
      "<|channel|>bogus<|message|>x<|end|>".toList := by
  decide

/-- Claim C3 amended: whenever extraction fails — which can only happen when
the extractor is strict — `ExtractFinalMessage` returns the empty string.
(A relaxed extractor's extraction never fails, so the original text is
never a failure fallback for it.) -/
theorem claimC3_amended (p : ParserConfig) (content : List Char)
    (msgs : List Message) (e : List Char)
    (h : ParseResponse p content = (msgs, some e)) :
    p.StrictMode = true ∧ ExtractFinalMessage p content = [] := by
  obtain ⟨hm, hs⟩ := ParseResponse_err h
  refine ⟨hs, ?_⟩
  rw [ExtractFinalMessage]
  simp only [h]
  rw [if_pos (by simp)]
  simp [hs]

/-- Claim C3 amended witness at the failing input. -/
theorem claimC3_amended_witness :
    StrictConfig.StrictMode = true ∧
    ExtractFinalMessage StrictConfig "<|channel|>bogus<|message|>x<|end|>".toList = [] :=
  claimC3_amended StrictConfig "<|channel|>bogus<|message|>x<|end|>".toList
    [] (invalidChannelErr "bogus".toList) (by decide)

/-- Claim C4 counterexample: for the target `functions.get.weather` the
returned function name is `parts[1] = "get"`, not the text after the first
dot (`"get.weather"`) as the claim states. -/
theorem claimC4_cex :
    ParseResponse DefaultConfig
        "<|channel|>commentary to=functions.get.weather<|message|>args<|call|>".toList =
      ([⟨"assistant".toList, "commentary".toList, "args".toList,
        "functions.get.weather".toList, true⟩], none) ∧
    ExtractFunctionCall DefaultConfig
        "<|channel|>commentary to=functions.get.weather<|message|>args<|call|>".toList =
      ("get".toList, "args".toList, true) ∧
    ("get".toList : List Char) ≠ "get.weather".toList := by
  decide

/-- Claim C4 amended: when extraction succeeds and some message satisfies
the scan predicate (`IsCall`, non-empty target, at least two dot-separated
segments), `ExtractFunctionCall` returns the second dot-separated segment
of the first such message's target (`parts[1]`) and that message's content. -/
theorem claimC4_amended (p : ParserConfig) (content : List Char)
    (msgs : List Message) (m : Message)
    (h : ParseResponse p content = (msgs, none))
    (hf : msgs.find? callPred = some m) :
    ExtractFunctionCall p content =
      ((splitDot m.To).getD 1 [], m.Content, true) := by
  rw [ExtractFunctionCall]
  simp only [h]
  rw [if_neg (by simp)]
  rw [findCallLoop_eq, hf]
  rfl

/-- Claim C4 amended witness at the package's own test input. -/
theorem claimC4_amended_witness :
    ExtractFunctionCall DefaultConfig
        "<|channel|>commentary to=functions.calculate<|message|>\x7b\"x\": 5\x7d<|call|>".toList =
      ("calculate".toList, "\x7b\"x\": 5\x7d".toList, true) := by
  have h := claimC4_amended DefaultConfig
    "<|channel|>commentary to=functions.calculate<|message|>\x7b\"x\": 5\x7d<|call|>".toList
    [⟨"assistant".toList, "commentary".toList, "\x7b\"x\": 5\x7d".toList,
      "functions.calculate".toList, true⟩]
    ⟨"assistant".toList, "commentary".toList, "\x7b\"x\": 5\x7d".toList,
      "functions.calculate".toList, true⟩
    (by decide) (by decide)
  rw [h]
  decide

/-- Claim C6: `ExtractJSON` fails with `NoJSONFound` exactly when the text
has no opening brace, no closing brace, or the last closing brace precedes
the first opening brace; otherwise it decodes the substring from the first
opening brace to the last closing brace inclusive, returning the decoded
value or a `MalformedJSON` error wrapping the decoder's error.  The JSON
decoder itself is Go's standard library, abstracted as the parameter
`decode`. -/
theorem claimC6 {α : Type} (decode : List Char → Except (List Char) α)
    (content : List Char) :
    (ExtractJSON decode content = .error noJSONErr ↔ noJSONCond content) ∧
    (∀ i j, indexOfChar lbrace content = some i →
      lastIndexOfChar rbrace content = some j → i ≤ j →
      ExtractJSON decode content =
        (match decode ((content.drop i).take (j + 1 - i)) with
         | .ok v => .ok v
         | .error e => .error (malformedErr e))) := by
  constructor
  · rw [ExtractJSON, noJSONCond]
    cases hi : indexOfChar lbrace content with
    | none => simp
    | some i =>
      cases hj : lastIndexOfChar rbrace content with
      | none => simp
      | some j =>
        dsimp only
        by_cases hij : j < i
        · rw [if_pos hij]
          simp [hij]
        · rw [if_neg hij]
          cases hd : decode ((content.drop i).take (j + 1 - i)) with
          | ok v => simp [hij]
          | error e => simp [hij, malformedErr_ne e]
  · intro i j hi hj hij
    rw [ExtractJSON, hi, hj]
    dsimp only
    rw [if_neg (by omega)]

/-- Claim C6 witness: the brace-extraction path on a concrete input with an
identity decoder. -/
theorem claimC6_witness :
    ExtractJSON (fun s => Except.ok s) "a\x7bx\x7db".toList =
      Except.ok "\x7bx\x7d".toList := by
  have h := (claimC6 (fun s => Except.ok s) "a\x7bx\x7db".toList).2 1 3
    (by decide) (by decide) (by decide)
  rw [h]
  rfl

/-- Claim C9: extraction is deterministic — it is a pure function of the
configuration and the input text, so two parses of the same text yield
field-for-field identical message lists and identical error results. -/
theorem claimC9 (p : ParserConfig) (content : List Char)
    (msgs msgs2 : List Message) (err err2 : Option (List Char))
    (h1 : ParseResponse p content = (msgs, err))
    (h2 : ParseResponse p content = (msgs2, err2)) :
    msgs = msgs2 ∧ err = err2 := by
  rw [h1] at h2
  simp only [Prod.mk.injEq] at h2
  exact h2

/-- Claim C9 witness: two parses of the same plain-text input. -/
theorem claimC9_witness :
    ([mkPlainMsg DefaultConfig ['x']] : List Message) =
      [mkPlainMsg DefaultConfig ['x']] ∧
    (none : Option (List Char)) = none :=
  claimC9 DefaultConfig ['x'] [mkPlainMsg DefaultConfig ['x']]
    [mkPlainMsg DefaultConfig ['x']] none none (by decide) (by decide)

theorem buildSimple_ok_mem {p : ParserConfig} {l : List ChanRaw}
    {msgs : List Message} (h : buildSimple p l = (msgs, none)) :
    ∀ m ∈ msgs, ∃ raw ∈ l, m = mkMsg2 p raw := by
  induction l generalizing msgs with
  | nil =>
    simp only [buildSimple, Prod.mk.injEq] at h
    rw [← h.1]
    simp
  | cons a l ih =>
    simp only [buildSimple] at h
    by_cases hc : (p.StrictMode && !isValidChannel (mkMsg2 p a).Channel) = true
    · rw [if_pos hc] at h
      simp at h
    · rw [if_neg hc] at h
      cases hb : buildSimple p l with
      | mk ms2 err =>
        rw [hb] at h
        cases err with
        | some e2 => simp at h
        | none =>
          simp only [Prod.mk.injEq] at h
          rw [← h.1]
          intro m hm
          rcases List.mem_cons.1 hm with rfl | hm'
          · exact ⟨a, List.mem_cons_self a l, rfl⟩
          · obtain ⟨raw, hraw, hraw2⟩ := ih hb m hm'
            exact ⟨raw, List.mem_cons_of_mem _ hraw, hraw2⟩

theorem findAllChannel_nil {content : List Char}
    (h : findAllMessage content = []) : findAllChannel content = [] := by
  apply findAllChanAux_eq_nil
  intro j
  cases hcm : matchChannelAt (content.drop j) with
  | none => rfl
  | some cr =>
    obtain ⟨r, hr⟩ := matchChannelAt_imp_message hcm
    rw [findAllMessage_nil_all h j] at hr
    exact absurd hr (by simp)

/-- Claim C1: with strict validation, an invalid channel among the messages
matched by the full-form rule — or, when the full-form rule matches nothing
and a channel token is present, among the messages matched by the
simplified-form rule — makes `ParseResponse` fail with the
`invalid channel:` error carrying an offending channel name and return no
messages at all; with strict validation disabled, `ParseResponse` never
returns an error. -/
theorem claimC1 (p : ParserConfig) (content : List Char) :
    (p.StrictMode = true →
      ((∃ m ∈ findAllMessage content,
          isValidChannel (mkMsg1 p m).Channel = false) →
        ∃ c, isValidChannel c = false ∧
          c ∈ (findAllMessage content).map (fun m => (mkMsg1 p m).Channel) ∧
          ParseResponse p content = ([], some (invalidChannelErr c))) ∧
      (findAllMessage content = [] → containsTok chanTok content = true →
        (∃ m ∈ findAllChannel content,
          isValidChannel (mkMsg2 p m).Channel = false) →
        ∃ c, isValidChannel c = false ∧
          ParseResponse p content = ([], some (invalidChannelErr c)))) ∧
    (p.StrictMode = false → (ParseResponse p content).2 = none) := by
  refine ⟨fun hp => ⟨fun hex => ?_, fun h1 h2 hex => ?_⟩,
    fun hp => ParseResponse_relaxed_ok hp content⟩
  · obtain ⟨c, hc1, hc2, hc3⟩ := buildFull_invalid hp hex
    refine ⟨c, hc1, hc2, ?_⟩
    have hne : content.isEmpty = false := by
      cases content with
      | nil =>
        exfalso
        obtain ⟨m, hm, _⟩ := hex
        simp [findAllMessage, findAllMsgAux] at hm
      | cons a l => rfl
    rw [ParseResponse, if_neg (by simp [hne]), hc3]
  · obtain ⟨c, hc1, hc2, hc3⟩ := buildSimple_invalid hp hex
    refine ⟨c, hc1, ?_⟩
    have hne : content.isEmpty = false := by
      cases content with
      | nil =>
        exfalso
        obtain ⟨m, hm, _⟩ := hex
        simp [findAllChannel, findAllChanAux] at hm
      | cons a l => rfl
    rw [ParseResponse, if_neg (by simp [hne]), h1]
    simp only [buildFull]
    rw [if_pos (by simp [h2]), hc3]

/-- Claim C1 witness: the strict-mode test input with the bad channel, and
the same input under the relaxed configuration. -/
theorem claimC1_witness :
    (∃ c, isValidChannel c = false ∧
      c ∈ (findAllMessage "<|channel|>invalid<|message|>Test<|end|>".toList).map
        (fun m => (mkMsg1 StrictConfig m).Channel) ∧
      ParseResponse StrictConfig "<|channel|>invalid<|message|>Test<|end|>".toList =
        ([], some (invalidChannelErr c))) ∧
    (ParseResponse DefaultConfig "<|channel|>invalid<|message|>Test<|end|>".toList).2 =
      none := by
  constructor
  · exact ((claimC1 StrictConfig
      "<|channel|>invalid<|message|>Test<|end|>".toList).1 rfl).1 (by decide)
  · exact (claimC1 DefaultConfig
      "<|channel|>invalid<|message|>Test<|end|>".toList).2 rfl

/-- Claim C5: on non-empty input on which the full-form, simplified-form
and legacy rules all yield nothing, a relaxed parse returns exactly one
message with the configured default role, the `final` channel and the whole
input as content, while a strict parse returns zero messages and no error.
(The simplified rule yields nothing automatically: when the full-form rule
has no match, neither has the simplified one.) -/
theorem claimC5 (p : ParserConfig) (content : List Char)
    (h0 : content ≠ [])
    (h1 : findAllMessage content = [])
    (h3 : containsTok funcLit content = true → findFunc content = none) :
    ParseResponse p content =
      (if p.StrictMode then ([], none)
       else ([{ Role := p.DefaultRole, Channel := chFinal, Content := content,
                To := [], IsCall := false }], none)) := by
  have hce : content.isEmpty = false := by
    cases content with
    | nil => exact absurd rfl h0
    | cons a l => rfl
  have hchan := findAllChannel_nil h1
  by_cases hfc : containsTok funcLit content = true
  · cases hp : p.StrictMode <;>
      simp [ParseResponse, hce, h1, buildFull, hchan, buildSimple, ite_self,
        h3 hfc, hfc, hp, mkPlainMsg]
  · cases hp : p.StrictMode <;>
      simp [ParseResponse, hce, h1, buildFull, hchan, buildSimple, ite_self,
        hfc, hp, mkPlainMsg]

/-- Claim C5 witness at the package's own plain-text test input, under the
relaxed and the strict configuration. -/
theorem claimC5_witness :
    ParseResponse DefaultConfig "Plain text message".toList =
      ([{ Role := DefaultConfig.DefaultRole, Channel := chFinal,
          Content := "Plain text message".toList, To := [], IsCall := false }],
        none) ∧
    ParseResponse StrictConfig "Plain text message".toList = ([], none) := by
  constructor
  · have h := claimC5 DefaultConfig "Plain text message".toList (by decide)
      (by decide) (fun hc => absurd hc (by decide))
    simpa [DefaultConfig] using h
  · have h := claimC5 StrictConfig "Plain text message".toList (by decide)
      (by decide) (fun hc => absurd hc (by decide))
    simpa [StrictConfig] using h

/-- Claim C7 counterexample: the plain-text fallback stores the input
verbatim, so a relaxed parse of `" hi "` produces a message whose content
has leading and trailing whitespace — the claimed invariant fails. -/
theorem claimC7_cex :
    ParseResponse DefaultConfig " hi ".toList =
      ([⟨"assistant".toList, chFinal, " hi ".toList, [], false⟩], none) ∧
    trimSpace " hi ".toList ≠ " hi ".toList := by
  decide

/-- Claim C7 amended: every message produced by the full-form rule or by
the simplified-form rule has whitespace-trimmed content; the legacy-call
and plain-text fallback messages carry their content verbatim and are not
covered by the invariant. -/
theorem claimC7_amended (p : ParserConfig) (content : List Char) :
    (∀ msgs m, ParseResponse p content = (msgs, none) →
      findAllMessage content ≠ [] → m ∈ msgs →
      trimSpace m.Content = m.Content) ∧
    (∀ msgs m, buildSimple p (findAllChannel content) = (msgs, none) →
      m ∈ msgs → trimSpace m.Content = m.Content) := by
  constructor
  · intro msgs m h hf hm
    have hce : content.isEmpty = false := by
      cases content with
      | nil => exact absurd rfl hf
      | cons a l => rfl
    rw [ParseResponse, if_neg (by simp [hce])] at h
    generalize hb : buildFull p (findAllMessage content) = r1 at h
    obtain ⟨msgs1, err1⟩ := r1
    cases err1 with
    | some e1 =>
      dsimp only at h
      simp at h
    | none =>
      dsimp only at h
      obtain ⟨a, l, hl⟩ : ∃ a l, findAllMessage content = a :: l := by
        cases hfa : findAllMessage content with
        | nil => exact absurd hfa hf
        | cons a l => exact ⟨a, l, rfl⟩
      rw [hl] at hb
      obtain ⟨rest, hrest⟩ := buildFull_ok_cons hb
      have hne1 : msgs1.isEmpty = false := by rw [hrest]; rfl
      simp only [hne1, Bool.false_and, Bool.false_eq_true, if_false] at h
      simp only [Prod.mk.injEq] at h
      obtain ⟨raw, hrawmem, hrawm⟩ := buildFull_ok_mem hb m (h.1 ▸ hm)
      rw [hrawm]
      simp [mkMsg1, trimSpace_idem]
  · intro msgs m h hm
    obtain ⟨raw, hrawmem, hrawm⟩ := buildSimple_ok_mem h m hm
    rw [hrawm]
    simp [mkMsg2, trimSpace_idem]

/-- Claim C7 amended witness: a full-form message with padded body is
trimmed, and so is a simplified-rule message built over the same text. -/
theorem claimC7_amended_witness :
    trimSpace (⟨"assistant".toList, chFinal, "pad".toList, [], false⟩ :
      Message).Content =
      (⟨"assistant".toList, chFinal, "pad".toList, [], false⟩ : Message).Content := by
  exact (claimC7_amended DefaultConfig
    "<|channel|>final<|message|> pad <|end|>".toList).1
    [⟨"assistant".toList, chFinal, "pad".toList, [], false⟩]
    ⟨"assistant".toList, chFinal, "pad".toList, [], false⟩
    (by decide) (by decide) (by decide)

/-- Claim C8: for every message match produced by the full-form rule, the
`IsCall` field (computed by the code as
`strings.Contains(match[0], "<|call|>")`) is true exactly when the match's
terminator is the `<|call|>` token; it is false for the `<|end|>` and
`<|return|>` terminators and at end of input. -/
theorem claimC8 (p : ParserConfig) (content : List Char) (m : RawMatch)
    (hm : m ∈ findAllMessage content) :
    (mkMsg1 p m).IsCall = true ↔ m.term = some Term.tCall := by
  obtain ⟨t, ht⟩ := mem_findAllMessage hm
  have hic := matchMessageAt_isCall ht
  show containsTok callTok m.match0 = true ↔ _
  rw [hic]
  simp

/-- Claim C8 witness: a call-terminated match has `IsCall` true. -/
theorem claimC8_witness :
    (⟨[], "final".toList, [], "hi".toList, some Term.tCall,
      "<|channel|>final<|message|>hi<|call|>".toList, []⟩ : RawMatch) ∈
        findAllMessage "<|channel|>final<|message|>hi<|call|>".toList ∧
    ((mkMsg1 DefaultConfig ⟨[], "final".toList, [], "hi".toList, some Term.tCall,
        "<|channel|>final<|message|>hi<|call|>".toList, []⟩).IsCall = true ↔
      (some Term.tCall : Option Term) = some Term.tCall) := by
  constructor
  · decide
  · exact claimC8 DefaultConfig "<|channel|>final<|message|>hi<|call|>".toList _
      (by decide)

/-- Claim C10: the simplified-form branch of `ParseResponse` is dead code.
Whenever the simplified channel pattern matches anywhere in the input, the
full-form pattern also matches, so the branch guard (no full-form messages)
and the branch body (a simplified match) cannot both hold; `ParseResponse`
is extensionally equal to the variant with the branch removed. -/
theorem claimC10 (content : List Char) :
    ((∃ i, matchChannelAt (content.drop i) ≠ none) →
      findAllMessage content ≠ []) ∧
    ∀ p, ParseResponse p content = ParseResponseNoSimple p content := by
  constructor
  · rintro ⟨i, hi⟩ hall
    cases hcm : matchChannelAt (content.drop i) with
    | none => exact hi hcm
    | some cr =>
      obtain ⟨r, hr⟩ := matchChannelAt_imp_message hcm
      rw [findAllMessage_nil_all hall i] at hr
      exact absurd hr (by simp)
  · intro p
    rw [ParseResponse, ParseResponseNoSimple]
    by_cases hc : content.isEmpty
    · rw [if_pos hc, if_pos hc]
    · rw [if_neg hc, if_neg hc]
      generalize hb : buildFull p (findAllMessage content) = r1
      obtain ⟨msgs1, err1⟩ := r1
      cases err1 with
      | some e1 => rfl
      | none =>
        dsimp only
        by_cases h2 : (msgs1.isEmpty && containsTok chanTok content) = true
        · have hm1 : msgs1 = [] := by
            have h2' := h2
            rw [Bool.and_eq_true] at h2'
            exact List.isEmpty_iff.1 h2'.1
          subst hm1
          have hfa : findAllMessage content = [] := by
            cases hfa : findAllMessage content with
            | nil => rfl
            | cons a l =>
              rw [hfa] at hb
              obtain ⟨rest, hrest⟩ := buildFull_ok_cons hb
              simp at hrest
          rw [if_pos h2, findAllChannel_nil hfa]
          rfl
        · rw [if_neg h2]

/-- Claim C10 witness: an input matched by the simplified pattern is also
matched by the full pattern, and the two parser variants agree on it. -/
theorem claimC10_witness :
    findAllMessage "<|channel|>final<|message|>hi<|end|>".toList ≠ [] ∧
    ParseResponse DefaultConfig "<|channel|>final<|message|>hi<|end|>".toList =
      ParseResponseNoSimple DefaultConfig
        "<|channel|>final<|message|>hi<|end|>".toList := by
  constructor
  · exact (claimC10 "<|channel|>final<|message|>hi<|end|>".toList).1
      ⟨0, by decide⟩
  · exact (claimC10 "<|channel|>final<|message|>hi<|end|>".toList).2 DefaultConfig

end GoHarmony
